import Mathlib

set_option maxHeartbeats 1000000
set_option maxRecDepth 16384
set_option linter.unnecessarySeqFocus false

/-!
Verification of the bip39-rs entropy/mnemonic codec.

The Rust source under verification is `src/mnemonic.rs`, the `Mnemonic` and
`WordList` types.  Bytes are modelled as natural numbers below 256, strings as
lists of characters, bit vectors as lists of booleans.  The crates `bitreader`
and `bit_vec` view a byte slice as a contiguous bit sequence, most significant
bit of the first byte first; `natToBits`, `bitsToNat`, `bytesToBits` and
`bitsToBytes` model exactly that view.

The repository modules `mnemonic_type.rs`, `util.rs`, `crypto.rs`, `seed.rs`
and `error.rs` are declared in `lib.rs` but their sources are not available;
every definition that depends on them is modelled from the specification and
says so in its doc comment.
-/

/-- Big-endian bits of `n`, `w` bits wide, most significant bit first.  This
is the bit order in which `bitreader` and `bit_vec` traverse a byte. -/
def natToBits : Nat → Nat → List Bool
  | 0, _ => []
  | w + 1, n => natToBits w (n / 2) ++ [decide (n % 2 = 1)]

/-- Value of a most-significant-bit-first bit string. -/
def bitsToNat (bs : List Bool) : Nat :=
  bs.foldl (fun acc b => 2 * acc + (if b then 1 else 0)) 0

/-- The bit sequence of a byte string, as `BitReader::new` and
`BitVec::from_bytes` expose it: each byte contributes its eight bits, most
significant first. -/
def bytesToBits (bs : List Nat) : List Bool :=
  (bs.map (natToBits 8)).flatten

/-- Packing of a bit sequence into bytes, as `BitVec::to_bytes` does it: eight
bits per byte, most significant first, a final partial byte padded with zero
bits. -/
def bitsToBytes : List Bool → List Nat
  | [] => []
  | b0 :: b1 :: b2 :: b3 :: b4 :: b5 :: b6 :: b7 :: rest =>
    bitsToNat [b0, b1, b2, b3, b4, b5, b6, b7] :: bitsToBytes rest
  | bs => [bitsToNat (bs ++ List.replicate (8 - bs.length) false)]

theorem natToBits_length (w n : Nat) : (natToBits w n).length = w := by
  induction w generalizing n with
  | zero => simp [natToBits]
  | succ k ih => simp [natToBits, ih]

theorem bitsToNat_append_bit (xs : List Bool) (b : Bool) :
    bitsToNat (xs ++ [b]) = 2 * bitsToNat xs + (if b then 1 else 0) := by
  simp [bitsToNat, List.foldl_append]

theorem mod_two_pow_succ (n k : Nat) :
    n % 2 ^ (k + 1) = 2 * (n / 2 % 2 ^ k) + n % 2 := by
  have hq : n = 2 * (n / 2) + n % 2 := (Nat.div_add_mod n 2).symm
  have hr : n % 2 < 2 := Nat.mod_lt _ (by norm_num)
  have hpow : 0 < 2 ^ k := Nat.pos_pow_of_pos k (by norm_num)
  have hsplit : n / 2 = 2 ^ k * (n / 2 / 2 ^ k) + n / 2 % 2 ^ k :=
    (Nat.div_add_mod (n / 2) (2 ^ k)).symm
  have hlt : 2 * (n / 2 % 2 ^ k) + n % 2 < 2 ^ (k + 1) := by
    have h1 : n / 2 % 2 ^ k < 2 ^ k := Nat.mod_lt _ hpow
    have h2 : 2 ^ (k + 1) = 2 * 2 ^ k := by rw [Nat.pow_succ]; ring
    omega
  conv_lhs => rw [hq, hsplit]
  have hre : 2 * (2 ^ k * (n / 2 / 2 ^ k) + n / 2 % 2 ^ k) + n % 2 =
      2 ^ (k + 1) * (n / 2 / 2 ^ k) + (2 * (n / 2 % 2 ^ k) + n % 2) := by
    rw [Nat.pow_succ]; ring
  rw [hre, Nat.mul_add_mod, Nat.mod_eq_of_lt hlt]

theorem bitsToNat_natToBits (w n : Nat) :
    bitsToNat (natToBits w n) = n % 2 ^ w := by
  induction w generalizing n with
  | zero => simp [natToBits, bitsToNat, Nat.mod_one]
  | succ k ih =>
    rw [natToBits, bitsToNat_append_bit, ih, mod_two_pow_succ]
    have h01 : n % 2 = 0 ∨ n % 2 = 1 := Nat.mod_two_eq_zero_or_one n
    rcases h01 with h | h <;> simp [h]

theorem bitsToNat_natToBits_of_lt {w n : Nat} (h : n < 2 ^ w) :
    bitsToNat (natToBits w n) = n := by
  rw [bitsToNat_natToBits, Nat.mod_eq_of_lt h]

theorem bitsToNat_lt (bs : List Bool) : bitsToNat bs < 2 ^ bs.length := by
  induction bs using List.reverseRecOn with
  | nil => simp [bitsToNat]
  | append_singleton xs b ih =>
    rw [bitsToNat_append_bit]
    simp only [List.length_append, List.length_cons, List.length_nil]
    have : 2 ^ (xs.length + 1) = 2 * 2 ^ xs.length := by ring
    rw [this]
    split <;> omega

theorem natToBits_bitsToNat (bs : List Bool) :
    natToBits bs.length (bitsToNat bs) = bs := by
  induction bs using List.reverseRecOn with
  | nil => simp [natToBits, bitsToNat]
  | append_singleton xs b ih =>
    rw [bitsToNat_append_bit]
    simp only [List.length_append, List.length_cons, List.length_nil]
    rw [natToBits]
    have hdiv : (2 * bitsToNat xs + (if b then 1 else 0)) / 2 = bitsToNat xs := by
      split <;> omega
    have hmod : ((2 * bitsToNat xs + (if b then 1 else 0)) % 2 = 1) = (b = true) := by
      cases b <;> simp <;> omega
    rw [hdiv, ih]
    congr 1
    simp [hmod]

theorem bytesToBits_nil : bytesToBits [] = [] := rfl

theorem bytesToBits_cons (b : Nat) (bs : List Nat) :
    bytesToBits (b :: bs) = natToBits 8 b ++ bytesToBits bs := by
  simp [bytesToBits]

theorem bytesToBits_append (xs ys : List Nat) :
    bytesToBits (xs ++ ys) = bytesToBits xs ++ bytesToBits ys := by
  simp [bytesToBits]

theorem bytesToBits_length (bs : List Nat) :
    (bytesToBits bs).length = 8 * bs.length := by
  induction bs with
  | nil => simp [bytesToBits]
  | cons b rest ih =>
    rw [bytesToBits_cons]
    simp [natToBits_length, ih]
    ring

theorem bitsToBytes_append8 (a rest : List Bool) (ha : a.length = 8) :
    bitsToBytes (a ++ rest) = bitsToNat a :: bitsToBytes rest := by
  rcases a with _ | ⟨b0, a⟩; · exfalso; simp only [List.length_cons, List.length_nil] at ha; omega
  rcases a with _ | ⟨b1, a⟩; · exfalso; simp only [List.length_cons, List.length_nil] at ha; omega
  rcases a with _ | ⟨b2, a⟩; · exfalso; simp only [List.length_cons, List.length_nil] at ha; omega
  rcases a with _ | ⟨b3, a⟩; · exfalso; simp only [List.length_cons, List.length_nil] at ha; omega
  rcases a with _ | ⟨b4, a⟩; · exfalso; simp only [List.length_cons, List.length_nil] at ha; omega
  rcases a with _ | ⟨b5, a⟩; · exfalso; simp only [List.length_cons, List.length_nil] at ha; omega
  rcases a with _ | ⟨b6, a⟩; · exfalso; simp only [List.length_cons, List.length_nil] at ha; omega
  rcases a with _ | ⟨b7, a⟩; · exfalso; simp only [List.length_cons, List.length_nil] at ha; omega
  rcases a with _ | ⟨b8, a⟩
  · rfl
  · exfalso
    simp only [List.length_cons] at ha
    omega

theorem bitsToBytes_bytesToBits (bs : List Nat) (h : ∀ b ∈ bs, b < 256) :
    bitsToBytes (bytesToBits bs) = bs := by
  induction bs with
  | nil => rfl
  | cons b rest ih =>
    rw [bytesToBits_cons, bitsToBytes_append8 _ _ (natToBits_length 8 b)]
    have hb : b < 2 ^ 8 := h b (List.mem_cons_self b rest)
    rw [bitsToNat_natToBits_of_lt hb,
      ih (fun x hx => h x (List.mem_cons_of_mem _ hx))]

theorem bytesToBits_bitsToBytes (bits : List Bool) (k : Nat)
    (hk : bits.length = 8 * k) :
    bytesToBits (bitsToBytes bits) = bits := by
  induction k generalizing bits with
  | zero =>
    have : bits = [] := List.eq_nil_of_length_eq_zero (by omega)
    subst this; rfl
  | succ m ih =>
    have h8 : (bits.take 8).length = 8 := by
      rw [List.length_take]; omega
    have hdrop : (bits.drop 8).length = 8 * m := by
      rw [List.length_drop]; omega
    conv_lhs => rw [← List.take_append_drop 8 bits]
    rw [bitsToBytes_append8 _ _ h8, bytesToBits_cons]
    have hrec := natToBits_bitsToNat (bits.take 8)
    rw [h8] at hrec
    rw [hrec, ih _ hdrop, List.take_append_drop]

theorem flatten_length_uniform {α : Type} (w : Nat) (ls : List (List α))
    (h : ∀ l ∈ ls, l.length = w) :
    ls.flatten.length = w * ls.length := by
  induction ls with
  | nil => simp
  | cons l t ih =>
    simp only [List.flatten_cons, List.length_append, List.length_cons]
    rw [h l (List.mem_cons_self l t), ih (fun x hx => h x (List.mem_cons_of_mem _ hx))]
    ring

theorem flatten_chunk {α : Type} (w : Nat) (ls : List (List α)) (i : Nat)
    (x : List α) (h : ∀ l ∈ ls, l.length = w) (hi : ls.get? i = some x) :
    ((ls.flatten).drop (w * i)).take w = x := by
  induction ls generalizing i with
  | nil => simp at hi
  | cons l t ih =>
    cases i with
    | zero =>
      simp only [List.get?] at hi
      cases hi
      simp only [Nat.mul_zero, List.flatten_cons, List.drop_zero]
      have hl : x.length = w := h x (List.mem_cons_self x t)
      rw [List.take_append_of_le_length (le_of_eq hl.symm), List.take_of_length_le (le_of_eq hl)]
    | succ j =>
      simp only [List.get?] at hi
      have hl : l.length = w := h l (List.mem_cons_self l t)
      have harith : w * (j + 1) = l.length + w * j := by rw [hl]; ring
      rw [List.flatten_cons, harith, ← List.drop_drop]
      rw [List.drop_left]
      exact ih j (fun y hy => h y (List.mem_cons_of_mem _ hy)) hi

/-! ### String model

Rust strings are modelled as lists of characters.  `splitOnChar` models
`str::split(" ")` from `Mnemonic::entropy` (mnemonic.rs line 276): every
single occurrence of the separator splits, so adjacent separators produce
empty tokens and the empty string yields one empty token.  `joinWords`
models `Vec::join(" ")` from `Mnemonic::from_entropy` (line 164). -/

def splitOnCharAux (sep : Char) : List Char → List Char → List (List Char)
  | [], acc => [acc.reverse]
  | c :: rest, acc =>
    if c = sep then acc.reverse :: splitOnCharAux sep rest []
    else splitOnCharAux sep rest (c :: acc)

def splitOnChar (sep : Char) (s : List Char) : List (List Char) :=
  splitOnCharAux sep s []

def joinWords : List (List Char) → List Char
  | [] => []
  | w :: ws => if ws = [] then w else w ++ ' ' :: joinWords ws

/-- Modelled from the spec: decode step 1 says "Split `phrase` on whitespace
into words"; its result only feeds the word count.  Tokens are maximal runs
of non-whitespace characters. -/
def splitWsAux : List Char → List Char → List (List Char)
  | [], acc => if acc = [] then [] else [acc.reverse]
  | c :: rest, acc =>
    if c.isWhitespace then
      (if acc = [] then splitWsAux rest [] else acc.reverse :: splitWsAux rest [])
    else splitWsAux rest (c :: acc)

/-- Modelled from the spec: whitespace splitting used by the word-count
lookup of decode step 1. -/
def splitWhitespace (s : List Char) : List (List Char) :=
  splitWsAux s []

/-! ### Error and MnemonicType -/

/-- Modelled from the spec: the five fixed configurations of the
MnemonicTypeTable, section 3 (`mnemonic_type.rs` is absent). -/
inductive MnemonicType where
  | t12 : MnemonicType
  | t15 : MnemonicType
  | t18 : MnemonicType
  | t21 : MnemonicType
  | t24 : MnemonicType
deriving DecidableEq

/-- Modelled from the spec: word counts 12, 15, 18, 21, 24. -/
def MnemonicType.wordCount : MnemonicType → Nat
  | .t12 => 12
  | .t15 => 15
  | .t18 => 18
  | .t21 => 21
  | .t24 => 24

/-- Modelled from the spec: entropy bit lengths 128, 160, 192, 224, 256. -/
def MnemonicType.entropyBits : MnemonicType → Nat
  | .t12 => 128
  | .t15 => 160
  | .t18 => 192
  | .t21 => 224
  | .t24 => 256

/-- Modelled from the spec: checksum bits are entropy bits divided by 32. -/
def MnemonicType.checksumBits (t : MnemonicType) : Nat :=
  t.entropyBits / 32

/-- Modelled from the spec: the closed error taxonomy of section 7
(`error.rs` is absent from the sources).  `InvalidEntropyLength` carries the
actual bit length and the requested type, as `Mnemonic::from_entropy`
constructs it; `InvalidWord` carries no data, exactly as the source writes
`ErrorKind::InvalidWord` with no payload (mnemonic.rs line 279). -/
inductive Error where
  | unsupportedWordCount : Error
  | unsupportedEntropyLength : Error
  | invalidEntropyLength : Nat → MnemonicType → Error
  | invalidWordListSize : Error
  | duplicateWord : Error
  | invalidWordCount : Error
  | invalidWord : Error
  | invalidChecksum : Error
  | decodeError : Error
  | provisioningError : Error
deriving DecidableEq

/-- Modelled from the spec: the table lookup by word count used by decode
step 1, which fails with `InvalidWordCount` for an unsupported count. -/
def MnemonicType.forWordCountTable (n : Nat) : Except Error MnemonicType :=
  if n = 12 then .ok .t12
  else if n = 15 then .ok .t15
  else if n = 18 then .ok .t18
  else if n = 21 then .ok .t21
  else if n = 24 then .ok .t24
  else .error .invalidWordCount

/-- Modelled from the spec: `MnemonicType::for_phrase` splits the phrase on
whitespace, counts the words, and looks the count up in the table. -/
def MnemonicType.forPhrase (s : List Char) : Except Error MnemonicType :=
  MnemonicType.forWordCountTable (splitWhitespace s).length

/-! ### WordList and external crypto primitives -/

/-- The word list of mnemonic.rs lines 53 to 57: a language tag and a word
sequence.  The source derives `Deserialize` for it and performs no
validation of any kind on the data. -/
structure WordList where
  language : List Char
  words : List (List Char)
deriving DecidableEq

/-- WordList construction as the source performs it: `serde` deserialization
of a `language`/`words` object (mnemonic.rs line 53, derive `Deserialize`;
used at line 105).  No size check and no duplicate check exist in the
source, so construction always succeeds. -/
def WordList.construct (language : List Char) (words : List (List Char)) :
    Except Error WordList :=
  .ok ⟨language, words⟩

/-- The word map built by `WordList::gen_wordmap` (mnemonic.rs lines 60 to
67): every word is inserted with its index, a later duplicate overwriting an
earlier entry, exactly as repeated `HashMap::insert` does.  `wordIndexAux ws
i w` is the lookup of `w` in the map built from `ws` starting at index `i`. -/
def wordIndexAux : List (List Char) → Nat → List Char → Option Nat
  | [], _, _ => none
  | v :: vs, i, w =>
    match wordIndexAux vs (i + 1) w with
    | some j => some j
    | none => if v = w then some i else none

/-- Lookup of a word in the map built by `gen_wordmap`. -/
def wordIndex (wl : WordList) (w : List Char) : Option Nat :=
  wordIndexAux wl.words 0 w

/-- Modelled from the spec: the external crypto primitives (the `sha256` of
`crypto.rs` and the key-derivation of `seed.rs` are absent from the
sources; the spec treats both as opaque, trusted primitives).  `hash` is
the digest function applied to entropy bytes; `seedDerive` is the
password-based derivation of section 4.4 applied to the phrase and the
passphrase. -/
structure Crypto where
  hash : List Nat → List Nat
  seedDerive : List Char → List Char → List Nat

/-- Modelled from the spec: `Seed::generate(phrase_bytes, passphrase)`
(seed.rs is absent) applies the key-derivation primitive to exactly the
phrase bytes and the passphrase, section 4.4. -/
def Seed.generate (crypto : Crypto) (phrase passphrase : List Char) : List Nat :=
  crypto.seedDerive phrase passphrase

/-- Modelled from the spec: `bit_from_u16_as_u11 n i` (util.rs is absent)
is bit `i` of the 11-bit big-endian representation of `n`, per decode step
3: "Concatenate all indices' 11-bit representations, MSB-first". -/
def bit_from_u16_as_u11 (n i : Nat) : Bool :=
  decide (n / 2 ^ (10 - i) % 2 = 1)

/-! ### The Mnemonic type and its operations -/

/-- The `Mnemonic` struct of mnemonic.rs lines 45 to 51.  The `entropy`
field is called `entropyBytes` because the source also has a method named
`entropy` on the same type. -/
structure Mnemonic where
  string : List Char
  seed : List Nat
  word_list : WordList
  entropyBytes : List Nat
deriving DecidableEq

/-- The per-word lookup loop of `Mnemonic::entropy` (mnemonic.rs lines 276
to 285): each word is looked up in the word map, and the loop stops with
`InvalidWord` at the first word that is absent. -/
def lookupAll (wl : WordList) : List (List Char) → Option (List Nat)
  | [] => some []
  | w :: ws =>
    match wordIndex wl w with
    | none => none
    | some n => (lookupAll wl ws).map (fun ns => n :: ns)

/-- The bit assembly, internal assertions and checksum verification of
`Mnemonic::entropy` (mnemonic.rs lines 274 to 309), applied to the 11-bit
index of every word in phrase order: push the 11 bits of every index, split
off the claimed checksum and the candidate entropy bits, pack the entropy
bits into bytes, hash them, and compare the leading checksum bits of the
hash with the claimed checksum.  The result is `none` where a source
`assert!` would panic.  `indexBits` is the `to_validate` bit vector built by
the nested loops of lines 276 to 285: eleven bits per index, in order. -/
def indexBits (ns : List Nat) : List Bool :=
  (ns.map (fun n => (List.range 11).map (fun i => bit_from_u16_as_u11 n i))).flatten

def checksumStage (crypto : Crypto) (mt : MnemonicType) (ns : List Nat) :
    Option (Except Error (List Nat)) :=
  let eb := mt.entropyBits
  let cb := mt.checksumBits
  let toValidate := indexBits ns
  let checksumToValidate := (toValidate.drop eb).take cb
  if checksumToValidate.length ≠ cb then none
  else
    let entBits := toValidate.take eb
    if entBits.length ≠ eb then none
    else
      let ent := bitsToBytes entBits
      let hashBits := bytesToBits (crypto.hash ent)
      let newChecksum := hashBits.take cb
      if newChecksum.length ≠ cb then none
      else if newChecksum = checksumToValidate then some (.ok ent)
      else some (.error .invalidChecksum)

/-- `Mnemonic::entropy` (mnemonic.rs lines 264 to 310): look up the phrase
word count, map every token of the space-split phrase to its word-map
index, then assemble the bits and verify the checksum.  The result is
`none` when the source panics (a failed `assert!`), and `some` of the
`Result` value otherwise. -/
def Mnemonic.entropy (crypto : Crypto) (m : List Char) (wl : WordList) :
    Option (Except Error (List Nat)) :=
  match MnemonicType.forPhrase m with
  | .error e => some (.error e)
  | .ok mt =>
    match lookupAll wl (splitOnChar ' ' m) with
    | none => some (.error .invalidWord)
    | some ns => checksumStage crypto mt ns

/-- `Mnemonic::from_string` (mnemonic.rs lines 207 to 229): decode and
validate the phrase, derive the seed from the phrase bytes and the
passphrase, and store the input phrase verbatim. -/
def Mnemonic.from_string (crypto : Crypto) (m : List Char) (wl : WordList)
    (password : List Char) : Option (Except Error Mnemonic) :=
  match Mnemonic.entropy crypto m wl with
  | none => none
  | some (.error e) => some (.error e)
  | some (.ok ent) =>
    some (.ok { string := m
                seed := Seed.generate crypto m password
                word_list := wl
                entropyBytes := ent })

/-- `Mnemonic::validate` (mnemonic.rs lines 254 to 257): run the decoder and
discard the entropy. -/
def Mnemonic.validate (crypto : Crypto) (m : List Char) (wl : WordList) :
    Option (Except Error Unit) :=
  (Mnemonic.entropy crypto m wl).map (fun r => r.map (fun _ => ()))

/-- The word-building loop of `Mnemonic::from_entropy` (mnemonic.rs lines
156 to 162): `count` sequential 11-bit reads of a `BitReader` over `bits`
starting at read number `pos`, each value indexed into the word list.  The
result is `none` where the source panics: a read past the end of the data
(`n.unwrap()`) or an out-of-range index (`word_list[n as usize]`). -/
def readWords (wl : WordList) (bits : List Bool) : Nat → Nat → Option (List (List Char))
  | 0, _ => some []
  | count + 1, pos =>
    let chunk := (bits.drop (11 * pos)).take 11
    if chunk.length = 11 then
      match wl.words.get? (bitsToNat chunk) with
      | none => none
      | some w => (readWords wl bits count (pos + 1)).map (fun ws => w :: ws)
    else none

/-- The phrase construction of `Mnemonic::from_entropy` (mnemonic.rs lines
142 to 164): append the entropy hash to the entropy, read `word_count`
groups of 11 bits, map each through the word list and join with single
spaces. -/
def encodePhrase (crypto : Crypto) (entropy : List Nat) (mt : MnemonicType)
    (wl : WordList) : Option (List Char) :=
  let combined := entropy ++ crypto.hash entropy
  let bits := bytesToBits combined
  (readWords wl bits mt.wordCount 0).map joinWords

/-- `Mnemonic::from_entropy` (mnemonic.rs lines 130 to 167): check the
entropy length against the type, build the phrase, then construct through
`Mnemonic::from_string`. -/
def Mnemonic.from_entropy (crypto : Crypto) (entropy : List Nat)
    (mt : MnemonicType) (wl : WordList) (password : List Char) :
    Option (Except Error Mnemonic) :=
  if entropy.length * 8 ≠ mt.entropyBits then
    some (.error (.invalidEntropyLength (entropy.length * 8) mt))
  else
    match encodePhrase crypto entropy mt wl with
    | none => none
    | some s => Mnemonic.from_string crypto s wl password

/-- `Mnemonic::as_str` (mnemonic.rs lines 332 to 334). -/
def Mnemonic.as_str (m : Mnemonic) : List Char :=
  m.string

/-- `Mnemonic::get_string` (mnemonic.rs lines 339 to 341). -/
def Mnemonic.get_string (m : Mnemonic) : List Char :=
  m.string

/-- The bit sequence of encode step 3 as the spec words it: the entropy
bits, most significant bit of each byte first, followed by the leading
checksum bits of the entropy hash.  Written from the spec text for the
refinement claims, not from the source. -/
def encodeBitSequence (crypto : Crypto) (entropy : List Nat)
    (mt : MnemonicType) : List Bool :=
  bytesToBits entropy ++ (bytesToBits (crypto.hash entropy)).take mt.checksumBits

/-! ### Split and join lemmas -/

theorem splitOnCharAux_ne_nil (sep : Char) (s acc : List Char) :
    splitOnCharAux sep s acc ≠ [] := by
  induction s generalizing acc with
  | nil => simp [splitOnCharAux]
  | cons c rest ih =>
    rw [splitOnCharAux]
    split
    · simp
    · exact ih _

theorem splitOnChar_ne_nil (sep : Char) (s : List Char) :
    splitOnChar sep s ≠ [] :=
  splitOnCharAux_ne_nil sep s []

theorem joinWords_splitOnCharAux (s acc : List Char) :
    joinWords (splitOnCharAux ' ' s acc) = acc.reverse ++ s := by
  induction s generalizing acc with
  | nil => simp [splitOnCharAux, joinWords]
  | cons c rest ih =>
    rw [splitOnCharAux]
    split
    · rename_i hc
      subst hc
      rw [joinWords]
      simp only [splitOnCharAux_ne_nil, if_false]
      rw [ih]
      simp
    · rw [ih]
      simp

theorem joinWords_splitOnChar (s : List Char) :
    joinWords (splitOnChar ' ' s) = s := by
  simpa using joinWords_splitOnCharAux s []

theorem splitOnCharAux_no_sep (w rest acc : List Char) (h : ' ' ∉ w) :
    splitOnCharAux ' ' (w ++ rest) acc = splitOnCharAux ' ' rest (w.reverse ++ acc) := by
  induction w generalizing acc with
  | nil => simp
  | cons c t ih =>
    have hc : ¬ c = ' ' := fun hc => h (by simp [hc])
    simp only [List.cons_append]
    rw [splitOnCharAux, if_neg hc, ih _ (fun hm => h (List.mem_cons_of_mem _ hm))]
    simp

theorem splitOnChar_joinWords (ws : List (List Char)) (hne : ws ≠ [])
    (h : ∀ w ∈ ws, ' ' ∉ w) :
    splitOnChar ' ' (joinWords ws) = ws := by
  induction ws with
  | nil => exact absurd rfl hne
  | cons w t ih =>
    rw [joinWords]
    by_cases ht : t = []
    · subst ht
      simp only [if_true]
      rw [splitOnChar, ← List.append_nil w,
        splitOnCharAux_no_sep _ _ _ (h w (List.mem_cons_self w [])), splitOnCharAux]
      simp
    · rw [if_neg ht, splitOnChar, splitOnCharAux_no_sep _ _ _ (h w (List.mem_cons_self w t)),
        splitOnCharAux, if_pos rfl]
      have := ih ht (fun x hx => h x (List.mem_cons_of_mem _ hx))
      rw [splitOnChar] at this
      rw [this]
      simp

theorem splitWsAux_no_ws (w rest acc : List Char)
    (h : ∀ c ∈ w, ¬ c.isWhitespace) :
    splitWsAux (w ++ rest) acc = splitWsAux rest (w.reverse ++ acc) := by
  induction w generalizing acc with
  | nil => simp
  | cons c t ih =>
    simp only [List.cons_append]
    rw [splitWsAux, if_neg (h c (List.mem_cons_self c t)),
      ih _ (fun x hx => h x (List.mem_cons_of_mem _ hx))]
    simp

theorem space_isWhitespace : (' ' : Char).isWhitespace = true := by decide

theorem splitWhitespace_joinWords (ws : List (List Char))
    (h : ∀ w ∈ ws, w ≠ [] ∧ ∀ c ∈ w, ¬ c.isWhitespace) :
    splitWhitespace (joinWords ws) = ws := by
  induction ws with
  | nil => rfl
  | cons w t ih =>
    have hw := h w (List.mem_cons_self w t)
    have hwrev : w.reverse ≠ [] := by
      simpa using hw.1
    rw [joinWords]
    by_cases ht : t = []
    · subst ht
      rw [if_pos rfl, splitWhitespace, ← List.append_nil w, splitWsAux_no_ws _ _ _ hw.2]
      rw [splitWsAux]
      simp only [List.append_nil]
      rw [if_neg hwrev]
      simp
    · rw [if_neg ht, splitWhitespace, splitWsAux_no_ws _ _ _ hw.2]
      simp only [List.append_nil]
      rw [splitWsAux, if_pos space_isWhitespace, if_neg hwrev]
      have := ih (fun x hx => h x (List.mem_cons_of_mem _ hx))
      rw [splitWhitespace] at this
      rw [this]
      simp

/-! ### Word map lemmas -/

theorem wordIndexAux_some (ws : List (List Char)) (i : Nat) (w : List Char)
    (n : Nat) (h : wordIndexAux ws i w = some n) :
    ∃ j, n = i + j ∧ ws.get? j = some w := by
  induction ws generalizing i with
  | nil => simp [wordIndexAux] at h
  | cons v vs ih =>
    rw [wordIndexAux] at h
    rcases hrec : wordIndexAux vs (i + 1) w with _ | j
    · rw [hrec] at h
      simp only at h
      split at h
      · rename_i hv
        cases h
        exact ⟨0, by omega, by simp [hv]⟩
      · cases h
    · rw [hrec] at h
      simp only at h
      cases h
      obtain ⟨j', hj', hget⟩ := ih (i + 1) hrec
      exact ⟨j' + 1, by omega, by simpa using hget⟩

theorem wordIndexAux_not_mem (ws : List (List Char)) (i : Nat) (w : List Char)
    (h : w ∉ ws) : wordIndexAux ws i w = none := by
  induction ws generalizing i with
  | nil => rfl
  | cons v vs ih =>
    rw [wordIndexAux, ih _ (fun hm => h (List.mem_cons_of_mem _ hm))]
    simp only
    rw [if_neg (fun hv => h (by simp [hv]))]

theorem wordIndexAux_of_get (ws : List (List Char)) (i j : Nat) (w : List Char)
    (hnd : ws.Nodup) (hget : ws.get? j = some w) :
    wordIndexAux ws i w = some (i + j) := by
  induction ws generalizing i j with
  | nil => simp at hget
  | cons v vs ih =>
    rw [wordIndexAux]
    cases j with
    | zero =>
      simp only [List.get?] at hget
      cases hget
      have hnm : w ∉ vs := (List.nodup_cons.mp hnd).1
      rw [wordIndexAux_not_mem _ _ _ hnm]
      simp
    | succ j' =>
      simp only [List.get?] at hget
      have h2 := ih (i + 1) j' (List.nodup_cons.mp hnd).2 hget
      rw [show i + 1 + j' = i + (j' + 1) from by omega] at h2
      rw [h2]

theorem wordIndex_get? (wl : WordList) (w : List Char) (n : Nat)
    (h : wordIndex wl w = some n) : wl.words.get? n = some w := by
  obtain ⟨j, hj, hget⟩ := wordIndexAux_some _ _ _ _ h
  simpa [hj] using hget

theorem wordIndex_lt (wl : WordList) (w : List Char) (n : Nat)
    (h : wordIndex wl w = some n) : n < wl.words.length :=
  List.get?_eq_some.mp (wordIndex_get? wl w n h) |>.1

theorem wordIndex_of_get? (wl : WordList) (n : Nat) (w : List Char)
    (hnd : wl.words.Nodup) (hget : wl.words.get? n = some w) :
    wordIndex wl w = some n := by
  simpa using wordIndexAux_of_get wl.words 0 n w hnd hget

/-! ### Lookup loop lemmas -/

theorem lookupAll_forall₂ (wl : WordList) (ts : List (List Char))
    (ns : List Nat) (h : lookupAll wl ts = some ns) :
    List.Forall₂ (fun t n => wordIndex wl t = some n) ts ns := by
  induction ts generalizing ns with
  | nil =>
    rw [lookupAll] at h
    cases h
    exact List.Forall₂.nil
  | cons t ts ih =>
    rw [lookupAll] at h
    rcases hw : wordIndex wl t with _ | n
    · rw [hw] at h; cases h
    · rw [hw] at h
      rcases hrec : lookupAll wl ts with _ | ns'
      · rw [hrec] at h; cases h
      · rw [hrec] at h
        simp only [Option.map] at h

        cases h
        exact List.Forall₂.cons hw (ih ns' hrec)

theorem forall₂_lookupAll (wl : WordList) (ts : List (List Char))
    (ns : List Nat)
    (h : List.Forall₂ (fun t n => wordIndex wl t = some n) ts ns) :
    lookupAll wl ts = some ns := by
  induction h with
  | nil => rfl
  | cons hw _ ih =>
    rw [lookupAll]
    rename_i t n ts' ns' _
    rw [hw, ih]
    rfl

theorem lookupAll_none (wl : WordList) (ts : List (List Char))
    (w : List Char) (hmem : w ∈ ts) (hw : wordIndex wl w = none) :
    lookupAll wl ts = none := by
  induction ts with
  | nil => simp at hmem
  | cons t ts ih =>
    rw [lookupAll]
    rcases List.mem_cons.mp hmem with rfl | hmem'
    · rw [hw]
    · rcases hv : wordIndex wl t with _ | n
      · rfl
      · rw [ih hmem']
        rfl

/-! ### MnemonicType table facts -/

theorem mt_invariant (mt : MnemonicType) :
    mt.wordCount * 11 = mt.entropyBits + mt.checksumBits := by
  cases mt <;> rfl

theorem mt_eb_bytes (mt : MnemonicType) :
    mt.entropyBits = 8 * (mt.entropyBits / 8) := by
  cases mt <;> rfl

theorem mt_cb_le (mt : MnemonicType) : mt.checksumBits ≤ 8 := by
  cases mt <;> decide

theorem mt_wordCount_pos (mt : MnemonicType) : 0 < mt.wordCount := by
  cases mt <;> decide

theorem forWordCountTable_ok (n : Nat) (mt : MnemonicType)
    (h : MnemonicType.forWordCountTable n = .ok mt) : n = mt.wordCount := by
  rw [MnemonicType.forWordCountTable] at h
  split_ifs at h <;> (cases h; first | rfl | (rename_i h'; exact h'.symm ▸ rfl))

theorem forWordCountTable_self (mt : MnemonicType) :
    MnemonicType.forWordCountTable mt.wordCount = .ok mt := by
  cases mt <;> rfl

theorem forPhrase_wordCount (m : List Char) (mt : MnemonicType)
    (h : MnemonicType.forPhrase m = .ok mt) :
    (splitWhitespace m).length = mt.wordCount :=
  forWordCountTable_ok _ _ h

/-! ### Clean word lists -/

/-- A word list whose words are nonempty and contain no whitespace: the
shape every real BIP-0039 word list has, and the standing assumption under
which phrase splitting and joining invert each other. -/
def cleanWl (wl : WordList) : Prop :=
  ∀ w ∈ wl.words, w ≠ [] ∧ ∀ c ∈ w, ¬ c.isWhitespace

instance (wl : WordList) : Decidable (cleanWl wl) := by
  unfold cleanWl
  infer_instance

theorem tokens_clean (wl : WordList) (ts : List (List Char)) (ns : List Nat)
    (hclean : cleanWl wl) (hl : lookupAll wl ts = some ns) :
    ∀ t ∈ ts, t ≠ [] ∧ ∀ c ∈ t, ¬ c.isWhitespace := by
  induction ts generalizing ns with
  | nil => simp
  | cons t ts ih =>
    rw [lookupAll] at hl
    rcases hw : wordIndex wl t with _ | n
    · rw [hw] at hl; cases hl
    · rw [hw] at hl
      rcases hrec : lookupAll wl ts with _ | ns'
      · rw [hrec] at hl; cases hl
      · intro x hx
        rcases List.mem_cons.mp hx with rfl | hx'
        · have hget := wordIndex_get? wl x n hw
          exact hclean x (List.get?_mem hget)
        · exact ih ns' hrec x hx'

/-! ### Further structural lemmas -/

theorem natToBits_eq_map_range (w n : Nat) :
    natToBits w n =
      (List.range w).map (fun i => decide (n / 2 ^ (w - 1 - i) % 2 = 1)) := by
  induction w generalizing n with
  | zero => simp [natToBits]
  | succ k ih =>
    rw [natToBits, ih (n / 2), List.range_succ, List.map_append]
    congr 1
    · apply List.map_congr_left
      intro i hi
      have hik : i < k := List.mem_range.mp hi
      have hdd : n / 2 / 2 ^ (k - 1 - i) = n / 2 ^ (k + 1 - 1 - i) := by
        rw [Nat.div_div_eq_div_mul]
        congr 1
        rw [← Nat.pow_succ']
        congr 1
        omega
      rw [hdd]
    · simp

theorem bits11_eq (n : Nat) :
    (List.range 11).map (fun i => bit_from_u16_as_u11 n i) = natToBits 11 n := by
  rw [natToBits_eq_map_range]
  apply List.map_congr_left
  intro i _
  rfl

theorem flatten_chunks_of {α : Type} (w c : Nat) (l : List α)
    (h : l.length = w * c) :
    ((List.range c).map (fun k => (l.drop (w * k)).take w)).flatten = l := by
  induction c generalizing l with
  | zero =>
    have : l = [] := List.eq_nil_of_length_eq_zero (by omega)
    subst this
    rfl
  | succ c ih =>
    rw [List.range_succ_eq_map]
    simp only [List.map_cons, List.map_map, List.flatten_cons, Nat.mul_zero,
      List.drop_zero]
    have hfun : ((fun k => (l.drop (w * k)).take w) ∘ (fun x => x + 1)) =
        (fun k => ((l.drop w).drop (w * k)).take w) := by
      funext k
      simp only [Function.comp]
      rw [List.drop_drop]
      congr 2
      ring
    rw [hfun, ih (l.drop w) (by
      rw [List.length_drop]
      have hm : w * (c + 1) = w * c + w := by ring
      omega)]
    exact List.take_append_drop w l

theorem bitsToBytes_length_of (bits : List Bool) (k : Nat)
    (h : bits.length = 8 * k) : (bitsToBytes bits).length = k := by
  induction k generalizing bits with
  | zero =>
    have : bits = [] := List.eq_nil_of_length_eq_zero (by omega)
    subst this
    rfl
  | succ m ih =>
    have h8 : (bits.take 8).length = 8 := by rw [List.length_take]; omega
    rw [← List.take_append_drop 8 bits, bitsToBytes_append8 _ _ h8]
    rw [List.length_cons, ih (bits.drop 8) (by rw [List.length_drop]; omega)]

theorem get?_getD {α : Type} (l : List α) (n : Nat) (d : α)
    (h : n < l.length) : l.get? n = some (l.getD n d) := by
  rw [List.get?_eq_getElem?, List.getD_eq_getElem?_getD]
  rcases hg : l[n]? with _ | x
  · exact absurd (List.getElem?_eq_none_iff.mp hg) (by omega)
  · rfl

theorem splitWhitespace_eq_splitOnChar (p : List Char)
    (h : ∀ t ∈ splitOnChar ' ' p, t ≠ [] ∧ ∀ c ∈ t, ¬ c.isWhitespace) :
    splitWhitespace p = splitOnChar ' ' p := by
  conv_lhs => rw [← joinWords_splitOnChar p]
  exact splitWhitespace_joinWords _ h

theorem indexBits_eq (ns : List Nat) :
    indexBits ns = (ns.map (natToBits 11)).flatten := by
  rw [indexBits]
  congr 1
  apply List.map_congr_left
  intro n _
  exact bits11_eq n

theorem indexBits_length (ns : List Nat) :
    (indexBits ns).length = 11 * ns.length := by
  rw [indexBits_eq]
  rw [flatten_length_uniform 11 _ (by
    intro l hl
    obtain ⟨n, -, rfl⟩ := List.mem_map.mp hl
    exact natToBits_length 11 n)]
  rw [List.length_map]

theorem readWords_eq (wl : WordList) (bits : List Bool) (count pos : Nat)
    (hlen : ∀ k, k < count → 11 * (pos + k) + 11 ≤ bits.length)
    (hidx : ∀ k, k < count →
      bitsToNat ((bits.drop (11 * (pos + k))).take 11) < wl.words.length) :
    readWords wl bits count pos =
      some ((List.range count).map
        (fun k => wl.words.getD
          (bitsToNat ((bits.drop (11 * (pos + k))).take 11)) [])) := by
  induction count generalizing pos with
  | zero => rfl
  | succ c ih =>
    have h0 := hlen 0 (Nat.succ_pos c)
    simp only [Nat.add_zero] at h0
    have hchunk : ((bits.drop (11 * pos)).take 11).length = 11 := by
      rw [List.length_take, List.length_drop]
      omega
    have hi0 := hidx 0 (Nat.succ_pos c)
    simp only [Nat.add_zero] at hi0
    simp only [readWords]
    rw [if_pos hchunk, get?_getD wl.words _ [] hi0]
    rw [ih (pos + 1)
      (fun k hk => by
        have hh := hlen (k + 1) (by omega)
        rw [show pos + (k + 1) = pos + 1 + k from by omega] at hh
        exact hh)
      (fun k hk => by
        have hh := hidx (k + 1) (by omega)
        rw [show pos + (k + 1) = pos + 1 + k from by omega] at hh
        exact hh)]
    simp only [Option.map]
    rw [List.range_succ_eq_map]
    simp only [List.map_cons, List.map_map, Nat.add_zero]
    congr 2
    apply List.map_congr_left
    intro k _
    simp only [Function.comp]
    rw [show pos + 1 + k = pos + (k + 1) from by omega]

theorem encodeBitSequence_eq_take (crypto : Crypto) (e : List Nat)
    (mt : MnemonicType) (he : e.length * 8 = mt.entropyBits) :
    encodeBitSequence crypto e mt =
      (bytesToBits (e ++ crypto.hash e)).take
        (mt.entropyBits + mt.checksumBits) := by
  rw [encodeBitSequence, bytesToBits_append]
  have hA : (bytesToBits e).length = mt.entropyBits := by
    rw [bytesToBits_length]
    omega
  conv_rhs => rw [List.take_append_eq_append_take]
  rw [List.take_of_length_le
    (show (bytesToBits e).length ≤ mt.entropyBits + mt.checksumBits by
      rw [hA]; omega), hA]
  congr 2
  omega

theorem encodeBitSequence_length (crypto : Crypto) (e : List Nat)
    (mt : MnemonicType) (he : e.length * 8 = mt.entropyBits)
    (hhash : ∀ x, (crypto.hash x).length = 32) :
    (encodeBitSequence crypto e mt).length = mt.wordCount * 11 := by
  rw [encodeBitSequence, List.length_append, List.length_take,
    bytesToBits_length, bytesToBits_length, hhash]
  have hcb := mt_cb_le mt
  have hinv := mt_invariant mt
  omega

theorem encodePhrase_eq (crypto : Crypto) (e : List Nat) (mt : MnemonicType)
    (wl : WordList) (he : e.length * 8 = mt.entropyBits)
    (hhash : ∀ x, (crypto.hash x).length = 32)
    (hwl : 2048 ≤ wl.words.length) :
    encodePhrase crypto e mt wl =
      some (joinWords ((List.range mt.wordCount).map
        (fun k => wl.words.getD
          (bitsToNat (((encodeBitSequence crypto e mt).drop (11 * k)).take 11))
          []))) := by
  have hinv := mt_invariant mt
  have hcb := mt_cb_le mt
  have hbitslen : (bytesToBits (e ++ crypto.hash e)).length =
      mt.entropyBits + 256 := by
    rw [bytesToBits_length, List.length_append, hhash]
    omega
  have hidx : ∀ k, k < mt.wordCount →
      bitsToNat (((bytesToBits (e ++ crypto.hash e)).drop (11 * (0 + k))).take 11)
        < wl.words.length := by
    intro k _
    have hlt := bitsToNat_lt (((bytesToBits (e ++ crypto.hash e)).drop (11 * (0 + k))).take 11)
    have hle : (((bytesToBits (e ++ crypto.hash e)).drop (11 * (0 + k))).take 11).length ≤ 11 := by
      rw [List.length_take]
      omega
    have hpow : (2 : Nat) ^ (((bytesToBits (e ++ crypto.hash e)).drop (11 * (0 + k))).take 11).length ≤ 2 ^ 11 :=
      Nat.pow_le_pow_right (by norm_num) hle
    have h2048 : (2 : Nat) ^ 11 = 2048 := by norm_num
    omega
  simp only [encodePhrase]
  rw [readWords_eq wl _ mt.wordCount 0
    (fun k hk => by
      rw [hbitslen]
      omega)
    hidx]
  simp only [Option.map, Nat.zero_add]
  congr 2
  apply List.map_congr_left
  intro k hk
  have hkr : k < mt.wordCount := List.mem_range.mp hk
  congr 2
  rw [encodeBitSequence_eq_take crypto e mt he, List.drop_take, List.take_take]
  congr 1
  omega

theorem checksumStage_reduce (crypto : Crypto) (mt : MnemonicType)
    (ns : List Nat) (hlen : ns.length = mt.wordCount)
    (hhash : ∀ x, (crypto.hash x).length = 32) :
    checksumStage crypto mt ns =
      some (
        if (bytesToBits (crypto.hash
              (bitsToBytes ((indexBits ns).take mt.entropyBits)))).take
            mt.checksumBits
            = ((indexBits ns).drop mt.entropyBits).take mt.checksumBits
        then .ok (bitsToBytes ((indexBits ns).take mt.entropyBits))
        else .error .invalidChecksum) := by
  have hinv := mt_invariant mt
  have hcb := mt_cb_le mt
  have htv : (indexBits ns).length = mt.entropyBits + mt.checksumBits := by
    rw [indexBits_length, hlen]
    omega
  have hcsv : (((indexBits ns).drop mt.entropyBits).take mt.checksumBits).length
      = mt.checksumBits := by
    rw [List.length_take, List.length_drop, htv]
    omega
  have hent : (((indexBits ns).take mt.entropyBits)).length = mt.entropyBits := by
    rw [List.length_take, htv]
    omega
  have hnew : ((bytesToBits (crypto.hash
      (bitsToBytes ((indexBits ns).take mt.entropyBits)))).take
        mt.checksumBits).length = mt.checksumBits := by
    rw [List.length_take, bytesToBits_length, hhash]
    omega
  simp only [checksumStage]
  rw [if_neg (fun hcon => hcon hcsv), if_neg (fun hcon => hcon hent),
    if_neg (fun hcon => hcon hnew)]
  split <;> rfl

theorem entropy_reduce (crypto : Crypto) (wl : WordList) (m : List Char)
    (mt : MnemonicType) (ns : List Nat) (hclean : cleanWl wl)
    (hmt : MnemonicType.forPhrase m = .ok mt)
    (hlk : lookupAll wl (splitOnChar ' ' m) = some ns) :
    Mnemonic.entropy crypto m wl = checksumStage crypto mt ns ∧
      ns.length = mt.wordCount := by
  constructor
  · rw [Mnemonic.entropy, hmt, hlk]
  · have hf := lookupAll_forall₂ _ _ _ hlk
    have hlen := List.Forall₂.length_eq hf
    have hts := tokens_clean wl _ _ hclean hlk
    have hsw := splitWhitespace_eq_splitOnChar m hts
    have hwc := forPhrase_wordCount m mt hmt
    rw [hsw] at hwc
    omega

theorem map_range_getD {α : Type} (l : List α) (d : α) :
    (List.range l.length).map (fun k => l.getD k d) = l := by
  induction l with
  | nil => rfl
  | cons a l ih =>
    rw [List.length_cons, List.range_succ_eq_map, List.map_cons, List.map_map]
    have hcomp : ((fun k => (a :: l).getD k d) ∘ (fun x => x + 1)) =
        (fun k => l.getD k d) := by
      funext k
      rfl
    rw [hcomp, ih]
    rfl

theorem encode_decode (crypto : Crypto) (e : List Nat) (mt : MnemonicType)
    (wl : WordList)
    (he : e.length * 8 = mt.entropyBits)
    (hbytes : ∀ b ∈ e, b < 256)
    (hsize : wl.words.length = 2048)
    (hnd : wl.words.Nodup)
    (hclean : cleanWl wl)
    (hhash : ∀ x, (crypto.hash x).length = 32) :
    ∃ p, encodePhrase crypto e mt wl = some p ∧
      Mnemonic.entropy crypto p wl = some (.ok e) := by
  have hwl2048 : 2048 ≤ wl.words.length := le_of_eq hsize.symm
  have hinv := mt_invariant mt
  have hcb := mt_cb_le mt
  have henc := encodePhrase_eq crypto e mt wl he hhash hwl2048
  set ebs := encodeBitSequence crypto e mt with hebs
  have hebslen : ebs.length = mt.wordCount * 11 :=
    encodeBitSequence_length crypto e mt he hhash
  set ws : List (List Char) := (List.range mt.wordCount).map
    (fun k => wl.words.getD (bitsToNat ((ebs.drop (11 * k)).take 11)) [])
    with hws
  set ns : List Nat := (List.range mt.wordCount).map
    (fun k => bitsToNat ((ebs.drop (11 * k)).take 11)) with hns
  refine ⟨joinWords ws, henc, ?_⟩
  have hflen : ∀ k, k < mt.wordCount → ((ebs.drop (11 * k)).take 11).length = 11 := by
    intro k hk
    rw [List.length_take, List.length_drop, hebslen]
    omega
  have h2048 : (2 : Nat) ^ 11 = 2048 := by norm_num
  have hnlt : ∀ k, k < mt.wordCount →
      bitsToNat ((ebs.drop (11 * k)).take 11) < wl.words.length := by
    intro k hk
    have hb := bitsToNat_lt ((ebs.drop (11 * k)).take 11)
    rw [hflen k hk] at hb
    omega
  have hget : ∀ k, k < mt.wordCount →
      wl.words.get? (bitsToNat ((ebs.drop (11 * k)).take 11)) =
        some (wl.words.getD (bitsToNat ((ebs.drop (11 * k)).take 11)) []) :=
    fun k hk => get?_getD _ _ _ (hnlt k hk)
  have hws_mem : ∀ w ∈ ws, w ∈ wl.words := by
    intro w hw
    rw [hws] at hw
    obtain ⟨k, hk, rfl⟩ := List.mem_map.mp hw
    exact List.get?_mem (hget k (List.mem_range.mp hk))
  have hws_clean : ∀ w ∈ ws, w ≠ [] ∧ ∀ c ∈ w, ¬ c.isWhitespace :=
    fun w hw => hclean w (hws_mem w hw)
  have hws_ne : ws ≠ [] := by
    rw [hws]
    have hpos := mt_wordCount_pos mt
    intro hcon
    rw [List.map_eq_nil_iff, List.range_eq_nil] at hcon
    omega
  have hsplit : splitOnChar ' ' (joinWords ws) = ws :=
    splitOnChar_joinWords ws hws_ne
      (fun w hw hmem => absurd space_isWhitespace ((hws_clean w hw).2 ' ' hmem))
  have hsw : splitWhitespace (joinWords ws) = ws :=
    splitWhitespace_joinWords ws hws_clean
  have hwslen : ws.length = mt.wordCount := by
    rw [hws, List.length_map, List.length_range]
  have hmt2 : MnemonicType.forPhrase (joinWords ws) = .ok mt := by
    rw [MnemonicType.forPhrase, hsw, hwslen, forWordCountTable_self]
  have hlk : lookupAll wl (splitOnChar ' ' (joinWords ws)) = some ns := by
    rw [hsplit]
    apply forall₂_lookupAll
    rw [hws, hns, List.forall₂_map_left_iff, List.forall₂_map_right_iff,
      List.forall₂_same]
    intro k hk
    exact wordIndex_of_get? wl _ _ hnd (hget k (List.mem_range.mp hk))
  obtain ⟨hred, hnslen⟩ := entropy_reduce crypto wl (joinWords ws) mt ns hclean hmt2 hlk
  rw [hred, checksumStage_reduce crypto mt ns hnslen hhash]
  have hIB : indexBits ns = ebs := by
    rw [indexBits_eq, hns, List.map_map]
    have hmapeq : (List.range mt.wordCount).map
        (natToBits 11 ∘ fun k => bitsToNat ((ebs.drop (11 * k)).take 11)) =
        (List.range mt.wordCount).map (fun k => (ebs.drop (11 * k)).take 11) := by
      apply List.map_congr_left
      intro k hk
      simp only [Function.comp]
      have hnb := natToBits_bitsToNat ((ebs.drop (11 * k)).take 11)
      rw [hflen k (List.mem_range.mp hk)] at hnb
      exact hnb
    rw [hmapeq]
    exact flatten_chunks_of 11 mt.wordCount ebs (by rw [hebslen]; ring)
  rw [hIB]
  have hA : (bytesToBits e).length = mt.entropyBits := by
    rw [bytesToBits_length]
    omega
  have htake : ebs.take mt.entropyBits = bytesToBits e := by
    rw [hebs, encodeBitSequence]
    exact List.take_left' hA
  have hdrop : ebs.drop mt.entropyBits =
      (bytesToBits (crypto.hash e)).take mt.checksumBits := by
    rw [hebs, encodeBitSequence]
    exact List.drop_left' hA
  rw [htake, hdrop, bitsToBytes_bytesToBits e hbytes, List.take_take,
    Nat.min_self, if_pos rfl]

theorem forall₂_get? {α β : Type} {R : α → β → Prop} {l₁ : List α}
    {l₂ : List β} (h : List.Forall₂ R l₁ l₂) (i : Nat) (a : α) (b : β)
    (ha : l₁.get? i = some a) (hb : l₂.get? i = some b) : R a b := by
  induction h generalizing i with
  | nil => simp at ha
  | cons hr hrest ih =>
    cases i with
    | zero =>
      simp only [List.get?] at ha hb
      cases ha
      cases hb
      exact hr
    | succ j =>
      simp only [List.get?] at ha hb
      exact ih j ha hb

theorem decode_encode (crypto : Crypto) (wl : WordList) (m : List Char)
    (mt : MnemonicType) (e : List Nat)
    (hle : wl.words.length ≤ 2048)
    (hclean : cleanWl wl)
    (hhash : ∀ x, (crypto.hash x).length = 32)
    (hmt : MnemonicType.forPhrase m = .ok mt)
    (hdec : Mnemonic.entropy crypto m wl = some (.ok e)) :
    encodePhrase crypto e mt wl = some m := by
  have hinv := mt_invariant mt
  have hcb := mt_cb_le mt
  have hebB := mt_eb_bytes mt
  rcases hlk : lookupAll wl (splitOnChar ' ' m) with _ | ns
  · rw [Mnemonic.entropy, hmt, hlk] at hdec
    simp at hdec
  obtain ⟨hred, hnslen⟩ := entropy_reduce crypto wl m mt ns hclean hmt hlk
  rw [hred, checksumStage_reduce crypto mt ns hnslen hhash] at hdec
  have htvlen : (indexBits ns).length = mt.entropyBits + mt.checksumBits := by
    rw [indexBits_length, hnslen]
    omega
  have htklen : ((indexBits ns).take mt.entropyBits).length = mt.entropyBits := by
    rw [List.length_take]
    omega
  split at hdec
  case isFalse => simp at hdec
  case isTrue hcond =>
  have hent : bitsToBytes ((indexBits ns).take mt.entropyBits) = e := by
    simpa using hdec
  have he : e.length * 8 = mt.entropyBits := by
    have hl := bitsToBytes_length_of ((indexBits ns).take mt.entropyBits)
      (mt.entropyBits / 8) (by omega)
    rw [hent] at hl
    omega
  have hBB : bytesToBits e = (indexBits ns).take mt.entropyBits := by
    rw [← hent]
    exact bytesToBits_bitsToBytes _ (mt.entropyBits / 8) (by omega)
  have hdropcb : ((indexBits ns).drop mt.entropyBits).length = mt.checksumBits := by
    rw [List.length_drop]
    omega
  have hclaim : (indexBits ns).drop mt.entropyBits =
      (bytesToBits (crypto.hash e)).take mt.checksumBits := by
    rw [← hent]
    rw [hcond]
    exact (List.take_of_length_le (le_of_eq hdropcb)).symm
  have hebs : encodeBitSequence crypto e mt = indexBits ns := by
    rw [encodeBitSequence, hBB, ← hclaim, List.take_append_drop]
  have hbits_take : (bytesToBits (e ++ crypto.hash e)).take
      (mt.entropyBits + mt.checksumBits) = indexBits ns := by
    rw [← encodeBitSequence_eq_take crypto e mt he, hebs]
  have hbitslen : (bytesToBits (e ++ crypto.hash e)).length =
      mt.entropyBits + 256 := by
    rw [bytesToBits_length, List.length_append, hhash]
    omega
  have hf := lookupAll_forall₂ _ _ _ hlk
  have htsl := List.Forall₂.length_eq hf
  have hchunk_eq : ∀ k, k < mt.wordCount →
      ((bytesToBits (e ++ crypto.hash e)).drop (11 * k)).take 11 =
        natToBits 11 (ns.getD k 0) := by
    intro k hk
    have h1 : ((bytesToBits (e ++ crypto.hash e)).drop (11 * k)).take 11 =
        (((bytesToBits (e ++ crypto.hash e)).take
          (mt.entropyBits + mt.checksumBits)).drop (11 * k)).take 11 := by
      rw [List.drop_take, List.take_take]
      congr 1
      omega
    rw [h1, hbits_take, indexBits_eq]
    apply flatten_chunk 11 _ k
    · intro l hl
      obtain ⟨n, -, rfl⟩ := List.mem_map.mp hl
      exact natToBits_length 11 n
    · rw [List.get?_map, get?_getD ns k 0 (by omega)]
      rfl
  have hnk : ∀ k, k < mt.wordCount → wordIndex wl
      ((splitOnChar ' ' m).getD k []) = some (ns.getD k 0) := by
    intro k hk
    exact forall₂_get? hf k _ _
      (get?_getD _ k [] (by omega)) (get?_getD _ k 0 (by omega))
  simp only [encodePhrase]
  rw [readWords_eq wl _ mt.wordCount 0
    (fun k hk => by rw [hbitslen]; omega)
    (fun k hk => by
      simp only [Nat.zero_add]
      rw [hchunk_eq k hk, bitsToNat_natToBits_of_lt]
      · exact wordIndex_lt wl _ _ (hnk k hk)
      · have h2048 : (2 : Nat) ^ 11 = 2048 := by norm_num
        have := wordIndex_lt wl _ _ (hnk k hk)
        omega)]
  simp only [Option.map, Nat.zero_add]
  congr 1
  have hmapeq : (List.range mt.wordCount).map
      (fun k => wl.words.getD
        (bitsToNat (((bytesToBits (e ++ crypto.hash e)).drop (11 * k)).take 11)) []) =
      (List.range mt.wordCount).map (fun k => (splitOnChar ' ' m).getD k []) := by
    apply List.map_congr_left
    intro k hk
    have hkl := List.mem_range.mp hk
    rw [hchunk_eq k hkl, bitsToNat_natToBits_of_lt]
    · have hg1 := wordIndex_get? wl _ _ (hnk k hkl)
      have hg2 := get?_getD wl.words (ns.getD k 0) []
        (wordIndex_lt wl _ _ (hnk k hkl))
      rw [hg1] at hg2
      exact (Option.some.inj hg2).symm
    · have h2048 : (2 : Nat) ^ 11 = 2048 := by norm_num
      have := wordIndex_lt wl _ _ (hnk k hkl)
      omega
  rw [hmapeq]
  have hrange : mt.wordCount = (splitOnChar ' ' m).length := by omega
  rw [hrange, map_range_getD, joinWords_splitOnChar]

/-! ### Totality of the decoder over clean word lists -/

theorem entropy_total (crypto : Crypto) (wl : WordList) (hclean : cleanWl wl)
    (hhash : ∀ x, (crypto.hash x).length = 32) (m : List Char) :
    ∃ r, Mnemonic.entropy crypto m wl = some r := by
  rcases hmt : MnemonicType.forPhrase m with em | mt
  · exact ⟨.error em, by rw [Mnemonic.entropy, hmt]⟩
  rcases hlk : lookupAll wl (splitOnChar ' ' m) with _ | ns
  · exact ⟨.error .invalidWord, by rw [Mnemonic.entropy, hmt, hlk]⟩
  obtain ⟨hred, hnslen⟩ := entropy_reduce crypto wl m mt ns hclean hmt hlk
  rw [hred, checksumStage_reduce crypto mt ns hnslen hhash]
  exact ⟨_, rfl⟩

theorem forWordCountTable_unsupported (n : Nat)
    (h : n ≠ 12 ∧ n ≠ 15 ∧ n ≠ 18 ∧ n ≠ 21 ∧ n ≠ 24) :
    MnemonicType.forWordCountTable n = .error .invalidWordCount := by
  rw [MnemonicType.forWordCountTable, if_neg h.1, if_neg h.2.1, if_neg h.2.2.1,
    if_neg h.2.2.2.1, if_neg h.2.2.2.2]

/-! ### Concrete fixtures used by witnesses and counterexamples -/

/-- A hash and key-derivation instance with fixed outputs, standing in for
the external crypto primitives in concrete evaluations. -/
def crypto0 : Crypto :=
  ⟨fun _ => List.replicate 32 0, fun _ _ => []⟩

theorem crypto0_hash_length : ∀ x, (crypto0.hash x).length = 32 := by
  intro x
  simp [crypto0]

/-- A one-word word list; the source performs no size validation, so the
codec runs on it. -/
def wlSingle : WordList := ⟨['t'], [['a']]⟩

/-- Twelve copies of the single word of `wlSingle`, single spaces. -/
def phrase12a : List Char := "a a a a a a a a a a a a".data

/-- The same twelve words with one double space before the last word. -/
def phrase12aDouble : List Char := "a a a a a a a a a a a  a".data

/-- The word at index `n` of the 2048-word fixture: the 11-bit big-endian
spelling of `n` over the alphabet `a`, `b`. -/
def wordFor (n : Nat) : List Char :=
  (natToBits 11 n).map (fun b => if b then 'b' else 'a')

/-- A full-size word list of 2048 pairwise distinct 11-character words. -/
def wl2048 : WordList := ⟨['e', 'n'], (List.range 2048).map wordFor⟩

theorem wordFor_length (n : Nat) : (wordFor n).length = 11 := by
  simp [wordFor, natToBits_length]

theorem wl2048_length : wl2048.words.length = 2048 := by
  simp [wl2048]

theorem wl2048_nodup : wl2048.words.Nodup := by
  apply List.Nodup.map_on
  · intro x hx y hy hxy
    have hx' := List.mem_range.mp hx
    have hy' := List.mem_range.mp hy
    have hinj : Function.Injective (fun b : Bool => if b then 'b' else 'a') := by
      intro a b hab
      cases a <;> cases b <;> simp_all
    rw [wordFor, wordFor] at hxy
    have hb : natToBits 11 x = natToBits 11 y := List.map_injective_iff.mpr hinj hxy
    have hv := congrArg bitsToNat hb
    rw [bitsToNat_natToBits, bitsToNat_natToBits] at hv
    have h2048 : (2 : Nat) ^ 11 = 2048 := by norm_num
    rw [Nat.mod_eq_of_lt (by omega), Nat.mod_eq_of_lt (by omega)] at hv
    exact hv
  · exact List.nodup_range _

theorem wl2048_clean : cleanWl wl2048 := by
  intro w hw
  obtain ⟨n, -, rfl⟩ := List.mem_map.mp hw
  constructor
  · intro hcon
    have hl := congrArg List.length hcon
    rw [wordFor_length] at hl
    simp at hl
  · intro c hc
    rw [wordFor] at hc
    obtain ⟨b, -, rfl⟩ := List.mem_map.mp hc
    cases b <;> decide

/-! ### Claim C5 -/

/-- C5: a phrase whose whitespace word count is outside the five supported
sizes makes `Mnemonic::entropy` — and through it `validate` and
`from_string` — fail with `InvalidWordCount` for every word list, crypto
instance and password: the rejection precedes any word lookup or bit
processing, since the result does not depend on the word list at all. -/
theorem c5_invalid_word_count (m : List Char)
    (h : (splitWhitespace m).length ≠ 12 ∧ (splitWhitespace m).length ≠ 15 ∧
      (splitWhitespace m).length ≠ 18 ∧ (splitWhitespace m).length ≠ 21 ∧
      (splitWhitespace m).length ≠ 24) :
    ∀ (crypto : Crypto) (wl : WordList) (pw : List Char),
      Mnemonic.entropy crypto m wl = some (.error .invalidWordCount) ∧
      Mnemonic.validate crypto m wl = some (.error .invalidWordCount) ∧
      Mnemonic.from_string crypto m wl pw = some (.error .invalidWordCount) := by
  intro crypto wl pw
  have hfp : MnemonicType.forPhrase m = .error .invalidWordCount := by
    rw [MnemonicType.forPhrase]
    exact forWordCountTable_unsupported _ h
  have h1 : Mnemonic.entropy crypto m wl = some (.error .invalidWordCount) := by
    rw [Mnemonic.entropy, hfp]
  refine ⟨h1, ?_, ?_⟩
  · rw [Mnemonic.validate, h1]
    rfl
  · rw [Mnemonic.from_string, h1]

theorem c5_invalid_word_count_witness :
    Mnemonic.entropy crypto0 ("a b c".data) wlSingle =
      some (.error .invalidWordCount) ∧
    Mnemonic.validate crypto0 ("a b c".data) wlSingle =
      some (.error .invalidWordCount) ∧
    Mnemonic.from_string crypto0 ("a b c".data) wlSingle [] =
      some (.error .invalidWordCount) :=
  c5_invalid_word_count ("a b c".data) (by decide) crypto0 wlSingle []

/-! ### Claim C6 -/

/-- The twelve words of the test mnemonic, as a word list. -/
def wl12 : WordList :=
  ⟨['e', 'n'], ["park", "remain", "person", "kitchen", "mule", "spell",
    "knee", "armed", "position", "rail", "grid", "ankle"].map String.data⟩

/-- The valid test phrase with a capitalized first word. -/
def phraseCapPark : List Char :=
  "Park remain person kitchen mule spell knee armed position rail grid ankle".data

/-- The same phrase with a different unknown first word. -/
def phraseZebra : List Char :=
  "zebra remain person kitchen mule spell knee armed position rail grid ankle".data

/-- C6 (as amended): with a supported word count, a phrase one of whose
space-split tokens is absent from the word map — case-sensitively — makes
decoding fail with `InvalidWord`; the error value carries no payload
(`ErrorKind::InvalidWord` is written without data in the source), so it
does not name the offending word. -/
theorem c6_invalid_word (crypto : Crypto) (wl : WordList) (m : List Char)
    (mt : MnemonicType) (hmt : MnemonicType.forPhrase m = .ok mt)
    (hbad : ∃ w ∈ splitOnChar ' ' m, wordIndex wl w = none) :
    Mnemonic.entropy crypto m wl = some (.error .invalidWord) := by
  obtain ⟨w, hw, hnone⟩ := hbad
  rw [Mnemonic.entropy, hmt, lookupAll_none wl _ w hw hnone]

theorem c6_invalid_word_witness :
    Mnemonic.entropy crypto0 phraseCapPark wl12 = some (.error .invalidWord) :=
  c6_invalid_word crypto0 wl12 phraseCapPark .t12 (by rfl)
    ⟨"Park".data, by decide, by rfl⟩

/-- C6 counterexample: two phrases whose first unmatched words differ
("Park" against "zebra") produce identical `InvalidWord` results, so the
decode error cannot name the first unmatched word, contrary to the claim. -/
theorem c6_error_names_no_word :
    Mnemonic.entropy crypto0 phraseCapPark wl12 =
      Mnemonic.entropy crypto0 phraseZebra wl12 ∧
    Mnemonic.entropy crypto0 phraseZebra wl12 = some (.error .invalidWord) ∧
    phraseCapPark ≠ phraseZebra :=
  ⟨rfl, rfl, by decide⟩

/-! ### Claim C7 -/

/-- C7 (as amended): decoding determines the word count from the
whitespace-split of the phrase, but maps tokens from the single-space
split — two different splits of the same input. -/
theorem c7_two_splits (crypto : Crypto) (m : List Char) (wl : WordList) :
    Mnemonic.entropy crypto m wl =
      match MnemonicType.forWordCountTable (splitWhitespace m).length with
      | .error e => some (.error e)
      | .ok mt =>
        match lookupAll wl (splitOnChar ' ' m) with
        | none => some (.error .invalidWord)
        | some ns => checksumStage crypto mt ns :=
  rfl

/-- C7 counterexample: two phrases of the same twelve words differing only
in one extra space do not decode identically: the single-space phrase
decodes to the zero entropy while the double-space phrase fails with
`InvalidWord` on the empty token that `split(" ")` produces. -/
theorem c7_whitespace_not_ignored :
    splitWhitespace phrase12a = splitWhitespace phrase12aDouble ∧
    Mnemonic.entropy crypto0 phrase12a wlSingle =
      some (.ok (List.replicate 16 0)) ∧
    Mnemonic.entropy crypto0 phrase12aDouble wlSingle =
      some (.error .invalidWord) :=
  ⟨rfl, rfl, rfl⟩

/-! ### Claim C8 -/

/-- C8: the source WordList construction (a derived deserialization)
performs no validation at all: a one-word list and a list with a duplicated
word are both accepted, and under a duplicate the reverse word map sends
the word to its last index, leaving the first index unreachable — against
the claimed `InvalidWordListSize` and `DuplicateWord` failures. -/
theorem c8_construct_accepts_anything :
    WordList.construct ['x'] [['a']] = .ok ⟨['x'], [['a']]⟩ ∧
    WordList.construct ['x'] [['a'], ['a']] = .ok ⟨['x'], [['a'], ['a']]⟩ ∧
    wordIndex ⟨['x'], [['a'], ['a']]⟩ ['a'] = some 1 :=
  ⟨rfl, rfl, rfl⟩

/-! ### Claim C9 -/

/-- C9: over a word list of nonempty whitespace-free words and a 32-byte
hash, the decoder's internal assertions can never fire: `Mnemonic::entropy`
returns a `Result` value (is never `none`, the model of a panic) on every
input phrase. -/
theorem c9_no_assert_failure (crypto : Crypto) (wl : WordList)
    (hclean : cleanWl wl) (hhash : ∀ x, (crypto.hash x).length = 32) :
    ∀ m, ∃ r, Mnemonic.entropy crypto m wl = some r :=
  entropy_total crypto wl hclean hhash

theorem c9_no_assert_failure_witness :
    ∃ r, Mnemonic.entropy crypto0 ("a  b\tc".data) wlSingle = some r :=
  c9_no_assert_failure crypto0 wlSingle (by decide) crypto0_hash_length
    ("a  b\tc".data)

/-! ### Claim C10 -/

/-- C10: a successful `Mnemonic::from_string` stores the input phrase
verbatim — `as_str` and `get_string` return exactly the input characters,
with no normalization, trimming or whitespace rewriting — and the seed is
derived from exactly that phrase and passphrase. -/
theorem c10_verbatim_phrase (crypto : Crypto) (m : List Char)
    (wl : WordList) (pw : List Char) (mn : Mnemonic)
    (h : Mnemonic.from_string crypto m wl pw = some (.ok mn)) :
    mn.as_str = m ∧ mn.get_string = m ∧
      mn.seed = Seed.generate crypto m pw := by
  rw [Mnemonic.from_string] at h
  rcases hdec : Mnemonic.entropy crypto m wl with _ | r
  · rw [hdec] at h
    cases h
  rcases r with er | ent
  · rw [hdec] at h
    simp at h
  · rw [hdec] at h
    have h2 := Except.ok.inj (Option.some.inj h)
    rw [← h2]
    exact ⟨rfl, rfl, rfl⟩

/-- The mnemonic value constructed from `phrase12a` over `wlSingle`. -/
def mnA : Mnemonic := ⟨phrase12a, [], wlSingle, List.replicate 16 0⟩

theorem c10_verbatim_phrase_witness :
    mnA.as_str = phrase12a ∧ mnA.get_string = phrase12a ∧
      mnA.seed = Seed.generate crypto0 phrase12a [] :=
  c10_verbatim_phrase crypto0 phrase12a wlSingle [] mnA rfl

/-! ### Claim C1 -/

/-- C1: for every supported entropy size (the five MnemonicTypes) and every
entropy byte string of that size, under a 2048-word duplicate-free clean
word list and a 32-byte hash, `Mnemonic::from_entropy` succeeds and
`Mnemonic::entropy` applied to the produced phrase returns the original
entropy bytes exactly. -/
theorem c1_entropy_roundtrip (crypto : Crypto) (e : List Nat)
    (mt : MnemonicType) (wl : WordList) (pw : List Char)
    (he : e.length * 8 = mt.entropyBits)
    (hbytes : ∀ b ∈ e, b < 256)
    (hsize : wl.words.length = 2048)
    (hnd : wl.words.Nodup)
    (hclean : cleanWl wl)
    (hhash : ∀ x, (crypto.hash x).length = 32) :
    ∃ mn, Mnemonic.from_entropy crypto e mt wl pw = some (.ok mn) ∧
      mn.entropyBytes = e ∧
      Mnemonic.entropy crypto mn.string wl = some (.ok e) := by
  obtain ⟨p, henc, hdec⟩ :=
    encode_decode crypto e mt wl he hbytes hsize hnd hclean hhash
  refine ⟨⟨p, Seed.generate crypto p pw, wl, e⟩, ?_, rfl, hdec⟩
  rw [Mnemonic.from_entropy, if_neg (fun hcon => hcon he), henc]
  show Mnemonic.from_string crypto p wl pw = _
  rw [Mnemonic.from_string, hdec]

theorem c1_entropy_roundtrip_witness :
    ∃ mn, Mnemonic.from_entropy crypto0 (List.replicate 16 0) .t12 wl2048 [] =
        some (.ok mn) ∧
      mn.entropyBytes = List.replicate 16 0 ∧
      Mnemonic.entropy crypto0 mn.string wl2048 =
        some (.ok (List.replicate 16 0)) :=
  c1_entropy_roundtrip crypto0 (List.replicate 16 0) .t12 wl2048 []
    (by decide) (by decide) wl2048_length wl2048_nodup wl2048_clean
    crypto0_hash_length

/-! ### Claim C2 -/

/-- C2: any phrase that decodes successfully under a duplicate-free word
list of at most 2048 clean words is reproduced exactly by re-encoding the
decoded entropy; equivalently, a successfully constructed Mnemonic's stored
entropy re-encodes to its stored phrase. -/
theorem c2_phrase_roundtrip (crypto : Crypto) (wl : WordList)
    (m pw : List Char) (mn : Mnemonic)
    (hle : wl.words.length ≤ 2048)
    (hclean : cleanWl wl)
    (hhash : ∀ x, (crypto.hash x).length = 32)
    (h : Mnemonic.from_string crypto m wl pw = some (.ok mn)) :
    ∃ mt, MnemonicType.forPhrase m = .ok mt ∧ mn.string = m ∧
      encodePhrase crypto mn.entropyBytes mt wl = some m := by
  rw [Mnemonic.from_string] at h
  rcases hdec : Mnemonic.entropy crypto m wl with _ | r
  · rw [hdec] at h
    cases h
  rcases r with er | ent
  · rw [hdec] at h
    simp at h
  rw [hdec] at h
  have h2 := Except.ok.inj (Option.some.inj h)
  rcases hmt : MnemonicType.forPhrase m with em | mt
  · rw [Mnemonic.entropy, hmt] at hdec
    simp at hdec
  refine ⟨mt, rfl, ?_, ?_⟩
  · rw [← h2]
  · rw [← h2]
    exact decode_encode crypto wl m mt ent hle hclean hhash hmt hdec

theorem c2_phrase_roundtrip_witness :
    ∃ mt, MnemonicType.forPhrase phrase12a = .ok mt ∧
      mnA.string = phrase12a ∧
      encodePhrase crypto0 mnA.entropyBytes mt wlSingle = some phrase12a :=
  c2_phrase_roundtrip crypto0 wlSingle phrase12a [] mnA (by decide)
    (by decide) crypto0_hash_length rfl

/-! ### Claim C3 -/

/-- C3: encoding forms the bit sequence of the entropy bits followed by the
leading checksum bits of the entropy hash (`encodeBitSequence`, written
from the spec text), of total length word_count * 11, partitions it into
consecutive 11-bit groups read most-significant-bit first, maps each group
value in 0..2047 through the word list, and joins the words with single
ASCII spaces and nothing else. -/
theorem c3_encode_shape (crypto : Crypto) (e : List Nat) (mt : MnemonicType)
    (wl : WordList)
    (he : e.length * 8 = mt.entropyBits)
    (hhash : ∀ x, (crypto.hash x).length = 32)
    (hwl : 2048 ≤ wl.words.length) :
    (encodeBitSequence crypto e mt).length = mt.wordCount * 11 ∧
    encodePhrase crypto e mt wl =
      some (joinWords ((List.range mt.wordCount).map
        (fun k => wl.words.getD
          (bitsToNat (((encodeBitSequence crypto e mt).drop (11 * k)).take 11))
          []))) :=
  ⟨encodeBitSequence_length crypto e mt he hhash,
    encodePhrase_eq crypto e mt wl he hhash hwl⟩

theorem c3_encode_shape_witness :
    (encodeBitSequence crypto0 (List.replicate 16 0) .t12).length =
      MnemonicType.t12.wordCount * 11 ∧
    encodePhrase crypto0 (List.replicate 16 0) .t12 wl2048 =
      some (joinWords ((List.range MnemonicType.t12.wordCount).map
        (fun k => wl2048.words.getD
          (bitsToNat
            (((encodeBitSequence crypto0 (List.replicate 16 0) .t12).drop
              (11 * k)).take 11)) []))) :=
  c3_encode_shape crypto0 (List.replicate 16 0) .t12 wl2048 (by decide)
    crypto0_hash_length (le_of_eq wl2048_length.symm)

/-! ### Claim C4 -/

/-- C4: for a phrase with a supported word count whose space-split tokens
all map to word indices (over a clean word list and a 32-byte hash),
decoding packs the first entropy_bits of the assembled bit sequence into
the candidate entropy bytes, recomputes their hash, compares its leading
checksum_bits bits bit-for-bit with the trailing checksum_bits bits of the
bit sequence, fails with `InvalidChecksum` exactly when they differ, and
returns the candidate entropy on success. -/
theorem c4_checksum_verification (crypto : Crypto) (wl : WordList)
    (m : List Char) (mt : MnemonicType) (ns : List Nat)
    (hclean : cleanWl wl)
    (hhash : ∀ x, (crypto.hash x).length = 32)
    (hmt : MnemonicType.forPhrase m = .ok mt)
    (hlk : lookupAll wl (splitOnChar ' ' m) = some ns) :
    Mnemonic.entropy crypto m wl =
      some (
        if (bytesToBits (crypto.hash
              (bitsToBytes ((indexBits ns).take mt.entropyBits)))).take
            mt.checksumBits
            = ((indexBits ns).drop mt.entropyBits).take mt.checksumBits
        then .ok (bitsToBytes ((indexBits ns).take mt.entropyBits))
        else .error .invalidChecksum) := by
  obtain ⟨hred, hnslen⟩ := entropy_reduce crypto wl m mt ns hclean hmt hlk
  rw [hred]
  exact checksumStage_reduce crypto mt ns hnslen hhash

theorem c4_checksum_verification_witness :
    Mnemonic.entropy crypto0 phrase12a wlSingle =
      some (
        if (bytesToBits (crypto0.hash
              (bitsToBytes ((indexBits (List.replicate 12 0)).take
                MnemonicType.t12.entropyBits)))).take
            MnemonicType.t12.checksumBits
            = ((indexBits (List.replicate 12 0)).drop
                MnemonicType.t12.entropyBits).take
              MnemonicType.t12.checksumBits
        then .ok (bitsToBytes ((indexBits (List.replicate 12 0)).take
          MnemonicType.t12.entropyBits))
        else .error .invalidChecksum) :=
  c4_checksum_verification crypto0 wlSingle phrase12a .t12
    (List.replicate 12 0) (by decide) crypto0_hash_length (by rfl) (by rfl)
